import Mathlib

/-!
Verification of the GoChat room multiplexing engine.

The definitions below are a shallow embedding of the Go source:
* `hubStep` embeds one iteration of `Hub.run` (src/unnamed/part_001,
  lines 89-116); the same select-loop shape appears in `room.run`
  (src/room.go, lines 55-76).
* `roomStep` embeds the Join/Leave cases of `room.run` (src/room.go).
* `readPumpHandle` embeds the per-message body of `Client.readPump`
  (src/unnamed/part_001, lines 184-200).
* `regStep` embeds `HubManager.getHub` together with the cleanup
  goroutine it spawns (src/unnamed/part_001, lines 127-146); the mutex
  makes each of the three critical sections atomic, so they are modelled
  as atomic events of a transition system.
* `gocStep` embeds `roomManager.GetOrCreate` (src/room.go, lines 24-40)
  at the granularity of its two critical sections (RLock probe, then
  Lock re-check-and-create), interleaved by an arbitrary schedule.
* `allowOrigin` embeds `allowOrigin` (src/unnamed/part_001, lines 24-52).
* `serveWs` embeds `serveWs` (src/unnamed/part_001, lines 148-169).

A Go buffered channel is modelled as a bounded FIFO list: a
non-blocking send (`select`/`default`) succeeds exactly when the buffer
has free capacity, and sending on a closed channel is a panic.
-/

/-- Embeds Go `strings.HasPrefix`-style matching on character lists:
`listStartsWith s t` is true when `t` is an initial segment of `s`. -/
def listStartsWith : List Char → List Char → Bool
  | _, [] => true
  | [], _ :: _ => false
  | a :: s, b :: t => a == b && listStartsWith s t

/-- Embeds Go `strings.Contains` on character lists: `sub` occurs as a
contiguous run somewhere in `s`. -/
def listContainsSub : List Char → List Char → Bool
  | [], sub => sub.isEmpty
  | a :: t, sub => listStartsWith (a :: t) sub || listContainsSub t sub

/-- Embeds Go `strings.Contains` on strings. -/
def goContains (s sub : String) : Bool :=
  listContainsSub s.data sub.data

/-- Embeds Go `strings.HasSuffix`. -/
def goHasSuffix (s suf : String) : Bool :=
  listStartsWith s.data.reverse suf.data.reverse

/-- The white-space predicate used by Go `strings.TrimSpace`
(`unicode.IsSpace` restricted to the code points that occur in Latin-1:
tab, newline, vertical tab, form feed, carriage return, space, NEL,
no-break space). -/
def goIsSpace (c : Char) : Bool :=
  c = '\t' || c = '\n' || c = '\x0b' || c = '\x0c' || c = '\x0d' ||
  c = ' ' || c = '\x85' || c = '\xa0'

/-- Embeds Go `strings.TrimSpace`: drop white space from both ends. -/
def goTrimSpace (s : String) : String :=
  String.mk (((s.data.dropWhile goIsSpace).reverse.dropWhile goIsSpace).reverse)

/-- Embeds Go `strings.EqualFold` for ASCII hosts: case-insensitive
equality. -/
def goEqualFold (a b : String) : Bool :=
  a.data.map Char.toLower == b.data.map Char.toLower

/-- One client's outbound queue: the buffered channel `send` of a
`Client` (`make(chan []byte, 256)`), modelled as a FIFO list plus its
capacity. -/
structure ClientQ where
  buf : List String
  cap : Nat
deriving DecidableEq, Repr

/-- Hub state: the membership map `h.clients` (association list keyed
by client identity, insertion ordered) plus the room `pin` and a ledger
`closedLog` of the identities whose `send` channel the loop has
`close`d. -/
structure HubState where
  pin : String
  members : List (Nat × ClientQ)
  closedLog : List Nat
deriving DecidableEq, Repr

/-- The commands delivered to the `Hub.run` select loop. -/
inductive HubCmd where
  | register (c : Nat)
  | unregister (c : Nat)
  | broadcast (m : String)
  | ctxDone
deriving DecidableEq, Repr

/-- Association-list lookup on the membership map. -/
def assocFind (c : Nat) : List (Nat × ClientQ) → Option ClientQ
  | [] => none
  | p :: t => if p.1 = c then some p.2 else assocFind c t

/-- The welcome message of the `register` case of `Hub.run`
(src/unnamed/part_001, line 96). -/
def welcomeMsg (pin : String) : String :=
  "\x7b\"type\":\"system\",\"msg\":\"👋 Welcome to room " ++ pin ++ "\"\x7d"

/-- One iteration of the `Hub.run` select loop
(src/unnamed/part_001, lines 89-116).  Returns the next state and
whether the loop `return`ed.
* `ctxDone` (line 92-93): plain `return` — nothing is closed.
* `register` (94-96): add the client, then enqueue the welcome message
  into its fresh 256-slot channel (a blocking send, which succeeds on a
  fresh buffered channel).
* `unregister` (97-104): if a member, delete it, close its channel, and
  `return` when the membership map became empty.
* `broadcast` (105-113): for every member a non-blocking send; when the
  member's buffer has free capacity the payload is appended, otherwise
  the member's channel is closed and it is deleted.  No emptiness check
  is made here.
-/
def hubStep (cmd : HubCmd) (s : HubState) : HubState × Bool :=
  match cmd with
  | .ctxDone => (s, true)
  | .register c =>
    match assocFind c s.members with
    | none =>
      ({ s with members := s.members ++ [(c, ⟨[welcomeMsg s.pin], 256⟩)] }, false)
    | some _ =>
      ({ s with members := s.members.map (fun p =>
          if p.1 = c then (p.1, ⟨p.2.buf ++ [welcomeMsg s.pin], p.2.cap⟩) else p) },
       false)
  | .unregister c =>
    match assocFind c s.members with
    | some _ =>
      let ms := s.members.filter (fun p => p.1 != c)
      (⟨s.pin, ms, s.closedLog ++ [c]⟩, ms.isEmpty)
    | none => (s, false)
  | .broadcast m =>
    (⟨s.pin,
      s.members.filterMap (fun p =>
        if p.2.buf.length < p.2.cap then some (p.1, ⟨p.2.buf ++ [m], p.2.cap⟩)
        else none),
      s.closedLog ++
        (s.members.filter (fun p => p.2.cap ≤ p.2.buf.length)).map Prod.fst⟩,
     false)

/-- Witness for C1: a two-member hub where member 0 has a free slot and
member 1 is full; the broadcast enqueues to 0 and closes/evicts 1. -/
def c1wState : HubState :=
  ⟨"4242", [(0, ⟨["a"], 2⟩), (1, ⟨["b", "c"], 2⟩)], []⟩
/-- A hub whose sole member has a full 256-slot queue (the welcome
message plus 255 broadcast payloads), exactly as a stalled consumer
produces it. -/
def c2state : HubState :=
  ⟨"4242", [(0, ⟨welcomeMsg "4242" :: List.replicate 255 "m", 256⟩)], []⟩
/-- A hub with one member whose queue is open and empty. -/
def c6state : HubState := ⟨"1", [(0, ⟨[], 256⟩)], []⟩

/-- The Join/Leave commands of `room.run` (src/room.go); claim C4 is
about sequences of these alone. -/
inductive JLCmd where
  | join (c : Nat)
  | leave (c : Nat)
deriving DecidableEq, Repr

/-- Membership state of one `room` (src/room.go): the key set of the
`clients` map (insertion ordered) plus the ledger of `send` channels
the loop has closed. -/
structure RoomState where
  clients : List Nat
  closedLog : List Nat
deriving DecidableEq, Repr

/-- The `join` and `leave` cases of `room.run` (src/room.go, lines
58-64): `join` sets the membership map entry (idempotent on the map);
`leave` removes the client and closes its channel only when it is a
current member, otherwise it does nothing. -/
def roomStep (s : RoomState) : JLCmd → RoomState
  | .join c => if c ∈ s.clients then s else { s with clients := s.clients ++ [c] }
  | .leave c =>
    if c ∈ s.clients then ⟨s.clients.filter (fun x => x != c), s.closedLog ++ [c]⟩
    else s

/-- Replay a sequence of Join/Leave commands through `room.run`. -/
def roomReplay (s : RoomState) : List JLCmd → RoomState
  | [] => s
  | cmd :: t => roomReplay (roomStep s cmd) t

/-- Follows the spec words for claim C4 ("the set obtained by inserting
each joined peer and discarding every Leave whose peer is not currently
a member"): the reference membership step, to be compared with
`roomStep`. -/
def specMembershipStep (mem : List Nat) : JLCmd → List Nat
  | .join c => if c ∈ mem then mem else mem ++ [c]
  | .leave c => if c ∈ mem then mem.filter (fun x => x != c) else mem

/-- Reference membership replay for claim C4, from the spec words. -/
def specMembership (mem : List Nat) : List JLCmd → List Nat
  | [] => mem
  | cmd :: t => specMembership (specMembershipStep mem cmd) t

/-- The heartbeat-probe token `Client.readPump` looks for
(src/unnamed/part_001, line 194). -/
def pingToken : String := "\"type\":\"ping\""

/-- The pong reply `readPump` enqueues on its own channel
(src/unnamed/part_001, line 195); `ts` is the formatted time. -/
def pongMsg (ts : String) : String :=
  "\x7b\"type\":\"pong\",\"ts\":\"" ++ ts ++ "\"\x7d"

/-- What `readPump` does with one received payload: the message it
submits to the Room's broadcast channel (if any) and the messages it
enqueues on its own outbound channel. -/
structure ReadAction where
  toBroadcast : Option String
  ownEnqueue : List String
deriving DecidableEq, Repr

/-- The recognition test of `readPump` (src/unnamed/part_001, lines
193-194): the payload, trimmed of surrounding white space, contains the
ping token. -/
def isPingFrame (m : String) : Bool :=
  goContains (goTrimSpace m) pingToken

/-- The per-message body of `Client.readPump` (src/unnamed/part_001,
lines 184-199): a recognized heartbeat probe frame is consumed (a pong
is enqueued on the client's own channel, nothing is broadcast); any
other payload is submitted to the Room's broadcast channel verbatim —
the original `message`, not the trimmed copy. -/
def readPumpHandle (ts m : String) : ReadAction :=
  if isPingFrame m then ⟨none, [pongMsg ts]⟩ else ⟨some m, []⟩

/-- State of the hub goroutine interleaved with one client's read pump:
the hub state, whether the `Hub.run` loop has returned, and whether a
goroutine has panicked (a send on a closed Go channel panics). -/
structure SysState where
  hub : HubState
  stopped : Bool
  panicked : Bool
deriving DecidableEq, Repr

/-- Interleaving events: a command processed by the `Hub.run` loop, or
client `c`'s `readPump` receiving a ping frame and executing
`c.send <- pong` (src/unnamed/part_001, line 195). -/
inductive SysEvent where
  | hubCmd (cmd : HubCmd)
  | recvPing (c : Nat) (ts : String)
deriving DecidableEq, Repr

/-- Append `msg` to client `c`'s queue inside the membership list. -/
def enqueueOwn (c : Nat) (msg : String) (l : List (Nat × ClientQ)) :
    List (Nat × ClientQ) :=
  l.map (fun p => if p.1 = c then (p.1, ⟨p.2.buf ++ [msg], p.2.cap⟩) else p)

/-- One interleaving step.  A `hubCmd` is one loop iteration (skipped
if the loop has returned: nothing receives the command).  A `recvPing`
is the pong reply `c.send <- pong` of the read pump: on a channel the
hub has already closed this is a Go runtime panic; on an open channel
with free capacity it enqueues; on a full open channel the pump merely
blocks (modelled as no visible change). -/
def sysStep (s : SysState) (e : SysEvent) : SysState :=
  if s.panicked then s
  else
    match e with
    | .hubCmd cmd =>
      if s.stopped then s
      else
        let r := hubStep cmd s.hub
        ⟨r.1, r.2, false⟩
    | .recvPing c ts =>
      if c ∈ s.hub.closedLog then { s with panicked := true }
      else
        match assocFind c s.hub.members with
        | some q =>
          if q.buf.length < q.cap then
            { s with hub := { s.hub with
                members := enqueueOwn c (pongMsg ts) s.hub.members } }
          else s
        | none => s

/-- Run a list of interleaving events. -/
def sysRun (s : SysState) : List SysEvent → SysState
  | [] => s
  | e :: t => sysRun (sysStep s e) t

/-- An empty hub for room 4242, loop running, nothing panicked. -/
def sysInit : SysState := ⟨⟨"4242", [], []⟩, false, false⟩

/-- The failing interleaving for claim C5: client 0 registers (welcome
message occupies one of its 256 slots); 255 broadcasts fill its queue
while its write pump is stalled; the next broadcast finds the queue
full, closes the channel and evicts the client; then the still-running
read pump of client 0 receives a ping frame and replies on the closed
channel. -/
def c5trace : List SysEvent :=
  SysEvent.hubCmd (.register 0) ::
    (List.replicate 255 (SysEvent.hubCmd (.broadcast "m")) ++
      [SysEvent.hubCmd (.broadcast "m"), SysEvent.recvPing 0 "t0"])

/-- Association lookup in the `HubManager.hubs` map (pin keyed). -/
def lookupPin : List (String × Nat) → String → Option Nat
  | [], _ => none
  | e :: t, p => if e.1 = p then some e.2 else lookupPin t p

/-- Registry state for `HubManager` (src/unnamed/part_001, lines
118-146): the `hubs` map (pin to hub identity), the hubs whose `run`
loop is still active (`live`, with their pin), the hubs whose loop has
returned but whose cleanup goroutine has not yet executed its
`delete(m.hubs, p)` (`pending`), and a counter supplying fresh hub
identities. -/
structure RegState where
  hubs : List (String × Nat)
  live : List (String × Nat)
  pending : List (String × Nat)
  nextId : Nat
deriving DecidableEq, Repr

/-- Atomic registry events.  `getHub` holds `m.mu` for its whole body,
and the cleanup goroutine takes `m.mu` around its delete, so each event
is one critical section (plus `hubDone`, the loop returning, which
touches no shared state but enables the cleanup). -/
inductive RegEvent where
  | resolve (pin : String)
  | hubDone (pin : String) (h : Nat)
  | cleanup (pin : String) (h : Nat)
deriving DecidableEq, Repr

/-- One registry event (src/unnamed/part_001, lines 127-146).
* `resolve pin` is `getHub`: return the mapped hub if the entry exists
  — with no liveness check — otherwise create a fresh hub, record it
  and start its loop.
* `hubDone pin h`: hub `h`'s `run` returns (guarded: only a live hub's
  loop can return, and only once).
* `cleanup pin h`: the cleanup goroutine of hub `h` runs
  `delete(m.hubs, pin)` — unconditionally on the pin, with no check
  that the entry still refers to `h` (guarded: only a terminated,
  not-yet-cleaned hub has a pending cleanup). -/
def regStep (s : RegState) (e : RegEvent) : RegState × Option Nat :=
  match e with
  | .resolve pin =>
    match lookupPin s.hubs pin with
    | some h => (s, some h)
    | none =>
      ({ hubs := s.hubs ++ [(pin, s.nextId)], live := s.live ++ [(pin, s.nextId)],
         pending := s.pending, nextId := s.nextId + 1 }, some s.nextId)
  | .hubDone pin h =>
    if (pin, h) ∈ s.live then
      ({ s with live := s.live.filter (fun e2 => e2 != (pin, h)),
                pending := s.pending ++ [(pin, h)] }, none)
    else (s, none)
  | .cleanup pin h =>
    if (pin, h) ∈ s.pending then
      ({ s with hubs := s.hubs.filter (fun e2 => e2.1 != pin),
                pending := s.pending.filter (fun e2 => e2 != (pin, h)) }, none)
    else (s, none)

/-- The empty registry (`newHubManager`). -/
def regInit : RegState := ⟨[], [], [], 0⟩

/-- Run a list of registry events. -/
def runReg (s : RegState) : List RegEvent → RegState
  | [] => s
  | e :: t => runReg (regStep s e).1 t

/-- Run a list of registry events collecting each event's returned hub
(`getHub`'s return value; `none` for the other events). -/
def runRegOuts (s : RegState) : List RegEvent → List (Option Nat)
  | [] => []
  | e :: t => (regStep s e).2 :: runRegOuts (regStep s e).1 t

/-- Registry invariant: every live or pending hub is still the hub its
pin maps to; every recorded hub identity is below the freshness
counter; no hub is both live and pending. -/
def RegInv (s : RegState) : Prop :=
  (∀ p h, ((p, h) ∈ s.live ∨ (p, h) ∈ s.pending) → lookupPin s.hubs p = some h)
  ∧ (∀ p h, (p, h) ∈ s.hubs → h < s.nextId)
  ∧ (∀ e, e ∈ s.live → e ∉ s.pending)

/-- Outcome of one `serveWs` call: the HTTP error status written (if
any), whether `upgrader.Upgrade` was attempted, and the registry state
afterwards. -/
structure ServeOutcome where
  status : Option Nat
  attemptedUpgrade : Bool
  reg : RegState
deriving DecidableEq, Repr

/-- `serveWs` (src/unnamed/part_001, lines 148-169): an empty `pin`
query parameter is answered with `http.Error(w, "PIN required", 400)`
and the handler returns before the upgrade; otherwise the upgrade is
attempted (`upgradeOk` abstracts the transport's success) and only on
success is `getHub` called. -/
def serveWs (pin : String) (upgradeOk : Bool) (s : RegState) : ServeOutcome :=
  if pin = "" then ⟨some 400, false, s⟩
  else if upgradeOk then ⟨none, true, (regStep s (.resolve pin)).1⟩
  else ⟨none, true, s⟩

/-- Phase of one `GetOrCreate` caller (src/room.go, lines 24-40):
before its RLock probe, after a missed probe, or finished holding a
room reference. -/
inductive CPhase where
  | start
  | probed
  | done (r : Nat)
deriving DecidableEq, Repr

/-- Shared state for N concurrent `GetOrCreate(pin)` callers on one
previously-unseen pin: the map entry for that pin, the freshness
counter, and each caller's phase. -/
structure GocState where
  entry : Option Nat
  nextId : Nat
  callers : List CPhase
deriving DecidableEq, Repr

/-- One scheduled step of caller `i` of `GetOrCreate` (src/room.go,
lines 24-40).  `start`: the RLock probe — on a hit the caller returns
that room, on a miss it proceeds to the lock.  `probed`: the
re-check-and-create under `mu.Lock()`, one critical section — on a hit
the caller returns the existing room, otherwise it creates the room,
records it and returns it.  A finished caller does nothing. -/
def gocStep (s : GocState) (i : Nat) : GocState :=
  match s.callers.get? i with
  | none => s
  | some .start =>
    match s.entry with
    | some h => { s with callers := s.callers.set i (.done h) }
    | none => { s with callers := s.callers.set i .probed }
  | some .probed =>
    match s.entry with
    | some h => { s with callers := s.callers.set i (.done h) }
    | none =>
      { entry := some s.nextId, nextId := s.nextId + 1,
        callers := s.callers.set i (.done s.nextId) }
  | some (.done _) => s

/-- Run a schedule (list of caller indices). -/
def runGoc (s : GocState) : List Nat → GocState
  | [] => s
  | i :: t => runGoc (gocStep s i) t

/-- N callers about to race on an absent entry; `k` is the next fresh
room identity. -/
def gocInit (n k : Nat) : GocState := ⟨none, k, List.replicate n .start⟩

/-- Invariant for the `GetOrCreate` race: either the entry is still
absent, the counter untouched and nobody has finished, or the entry
holds the single created room `k`, the counter advanced exactly once,
and every finished caller got `k`. -/
def GInv (k : Nat) (s : GocState) : Prop :=
  (s.entry = none ∧ s.nextId = k ∧ ∀ c ∈ s.callers, ∀ r, c ≠ CPhase.done r)
  ∨ (s.entry = some k ∧ s.nextId = k + 1 ∧
      ∀ c ∈ s.callers, ∀ r, c = CPhase.done r → r = k)

/-- The two local-development substrings `allowOrigin` accepts
(src/unnamed/part_001, line 38). -/
def localhostPat : String := "localhost"

/-- See `localhostPat`. -/
def loopbackPat : String := "127.0.0.1"

/-- The deployment-domain suffix `allowOrigin` accepts
(src/unnamed/part_001, line 47). -/
def renderSuffix : String := ".onrender.com"

/-- The bare deployment apex domain (src/unnamed/part_001, line 47). -/
def renderApex : String := "onrender.com"

/-- The `Origin` header as `allowOrigin` sees it after `url.Parse`
(an external collaborator): absent, unparseable, or parsed with the
given `Host`. -/
inductive OriginHeader where
  | absent
  | malformed
  | parsed (host : String)
deriving DecidableEq, Repr

/-- `allowOrigin` (src/unnamed/part_001, lines 24-52): accept when the
header is absent; reject when `url.Parse` fails; otherwise accept a
host containing a local-development substring, a case-insensitive match
of the request's own host, or the deployment's domain; reject
everything else. -/
def allowOrigin (o : OriginHeader) (reqHost : String) : Bool :=
  match o with
  | .absent => true
  | .malformed => false
  | .parsed host =>
    if goContains host localhostPat || goContains host loopbackPat then true
    else if goEqualFold host reqHost then true
    else if goHasSuffix host renderSuffix || host == renderApex then true
    else false

/-- Spec-side name for the same-origin test of claim C9: the declared
origin's host matches the request's own host. -/
def sameOriginHost (host reqHost : String) : Bool :=
  goEqualFold host reqHost

/-- Spec-side name for the configured trusted patterns of claim C9:
local-development hosts or the deployment's own domain. -/
def trustedOriginPattern (host : String) : Bool :=
  goContains host localhostPat || goContains host loopbackPat ||
  goHasSuffix host renderSuffix || host == renderApex


-- ### Theorems below; definitions above. ###

/-- Keys of an association list are unique, so a key determines its
queue. -/
theorem assoc_value_unique {l : List (Nat × ClientQ)}
    (hnd : (l.map Prod.fst).Nodup) {c : Nat} {q1 q2 : ClientQ}
    (h1 : (c, q1) ∈ l) (h2 : (c, q2) ∈ l) : q1 = q2 := by
  induction l with
  | nil => cases h1
  | cons a t ih =>
    simp only [List.map_cons, List.nodup_cons] at hnd
    rcases List.mem_cons.mp h1 with h1a | h1t
    · rcases List.mem_cons.mp h2 with h2a | h2t
      · rw [← h1a] at h2a
        exact (Prod.mk.injEq _ _ _ _ ▸ h2a.symm).2
      · exfalso
        apply hnd.1
        have : a.1 = c := by rw [← h1a]
        rw [this]
        exact List.mem_map.mpr ⟨(c, q2), h2t, rfl⟩
    · rcases List.mem_cons.mp h2 with h2a | h2t
      · exfalso
        apply hnd.1
        have : a.1 = c := by rw [← h2a]
        rw [this]
        exact List.mem_map.mpr ⟨(c, q1), h1t, rfl⟩
      · exact ih hnd.2 h1t h2t

/-- Helper: a nonempty association list all of whose keys equal `c`,
with no duplicate keys, is a singleton. -/
theorem keys_all_eq_singleton {l : List (Nat × ClientQ)} {c : Nat}
    (hne : l ≠ []) (hall : ∀ p ∈ l, p.1 = c)
    (hnd : (l.map Prod.fst).Nodup) : ∃ q, l = [(c, q)] := by
  match l with
  | [] => exact absurd rfl hne
  | [(a, b)] =>
    have ha : a = c := hall (a, b) (by simp)
    exact ⟨b, by simp [ha]⟩
  | (a1, b1) :: (a2, b2) :: t =>
    exfalso
    have h1 : a1 = c := hall (a1, b1) (by simp)
    have h2 : a2 = c := hall (a2, b2) (by simp)
    simp only [List.map_cons, List.nodup_cons, List.mem_cons] at hnd
    exact hnd.1 (Or.inl (by rw [h1, h2]))

/-- Claim C1: in the `broadcast` case of `Hub.run`, for every current
member, if its outbound queue has free capacity the payload is appended
to it (and it stays a member); if the queue is full the non-blocking
send takes the `default` branch, the member's channel is closed and the
member is deleted from membership in that same broadcast — and the loop
itself continues (does not return), so every other member with capacity
still receives the payload (the second conjunct, instantiated at each
such member). -/
theorem c1_broadcast_fanout (s : HubState) (m : String) (c : Nat) (q : ClientQ)
    (hnd : (s.members.map Prod.fst).Nodup) (hmem : (c, q) ∈ s.members) :
    (hubStep (.broadcast m) s).2 = false
    ∧ (q.buf.length < q.cap →
        (c, ⟨q.buf ++ [m], q.cap⟩) ∈ (hubStep (.broadcast m) s).1.members)
    ∧ (q.cap ≤ q.buf.length →
        (∀ q2, (c, q2) ∉ (hubStep (.broadcast m) s).1.members)
        ∧ c ∈ (hubStep (.broadcast m) s).1.closedLog) := by
  refine ⟨rfl, ?_, ?_⟩
  · intro hlt
    simp only [hubStep]
    exact List.mem_filterMap.mpr ⟨(c, q), hmem, by simp [hlt]⟩
  · intro hfull
    constructor
    · intro q2 hq2
      simp only [hubStep] at hq2
      obtain ⟨⟨a, b⟩, hab, heq⟩ := List.mem_filterMap.mp hq2
      by_cases hb : b.buf.length < b.cap
      · rw [if_pos hb] at heq
        simp only [Option.some.injEq, Prod.mk.injEq] at heq
        obtain ⟨rfl, -⟩ := heq
        have hbq : b = q := assoc_value_unique hnd hab hmem
        rw [hbq] at hb
        exact absurd hfull (Nat.not_le.mpr hb)
      · rw [if_neg hb] at heq
        cases heq
    · simp only [hubStep]
      refine List.mem_append.mpr (Or.inr ?_)
      refine List.mem_map.mpr ⟨(c, q), List.mem_filter.mpr ⟨hmem, ?_⟩, rfl⟩
      simpa using hfull

theorem c1_broadcast_fanout_witness :
    (0, (⟨["a", "m"], 2⟩ : ClientQ)) ∈ (hubStep (.broadcast "m") c1wState).1.members
    ∧ 1 ∈ (hubStep (.broadcast "m") c1wState).1.closedLog := by
  constructor
  · exact (c1_broadcast_fanout c1wState "m" 0 ⟨["a"], 2⟩ (by decide)
      (by decide)).2.1 (by decide)
  · exact ((c1_broadcast_fanout c1wState "m" 1 ⟨["b", "c"], 2⟩ (by decide)
      (by decide)).2.2 (by decide)).2

/-- Claim C2 (amended): the `Hub.run` loop returns exactly when the
command is the context cancellation, or an `unregister` of the sole
remaining member (a Leave that empties the membership map).  In
particular a `broadcast` never makes the loop return, even when its
evictions empty the membership map. -/
theorem c2_termination_characterization (s : HubState) (cmd : HubCmd)
    (hnd : (s.members.map Prod.fst).Nodup) :
    (hubStep cmd s).2 = true ↔
      (cmd = .ctxDone ∨ ∃ c q, cmd = .unregister c ∧ s.members = [(c, q)]) := by
  cases cmd with
  | ctxDone => simp [hubStep]
  | register c =>
    constructor
    · intro h
      exfalso
      simp only [hubStep] at h
      cases hf : assocFind c s.members <;> rw [hf] at h <;> simp at h
    · rintro (h | ⟨c2, q, h, -⟩) <;> cases h
  | broadcast m =>
    constructor
    · intro h
      simp [hubStep] at h
    · rintro (h | ⟨c2, q, h, -⟩) <;> cases h
  | unregister c =>
    cases hf : assocFind c s.members with
    | none =>
      simp only [hubStep, hf]
      constructor
      · intro h
        cases h
      · rintro (h | ⟨c2, q, hc, hm⟩)
        · cases h
        · injection hc with hcc
          subst hcc
          rw [hm] at hf
          simp [assocFind] at hf
    | some q0 =>
      simp only [hubStep, hf]
      constructor
      · intro h
        have hfe : s.members.filter (fun p => p.1 != c) = [] :=
          List.isEmpty_iff.mp h
        have hall : ∀ p ∈ s.members, p.1 = c := by
          intro p hp
          by_contra hne
          have hpf : p ∈ s.members.filter (fun p => p.1 != c) :=
            List.mem_filter.mpr ⟨hp, by simp [hne]⟩
          rw [hfe] at hpf
          cases hpf
        have hne : s.members ≠ [] := by
          intro h0
          rw [h0] at hf
          simp [assocFind] at hf
        obtain ⟨q, hq⟩ := keys_all_eq_singleton hne hall hnd
        exact Or.inr ⟨c, q, rfl, hq⟩
      · rintro (h | ⟨c2, q, hc, hm⟩)
        · cases h
        · injection hc with hcc
          subst hcc
          rw [hm]
          simp [List.filter]

/-- Witness for C2: unregistering the only member makes the loop
return. -/
theorem c2_termination_witness :
    (hubStep (.unregister 7) ⟨"9", [(7, ⟨[], 256⟩)], []⟩).2 = true :=
  (c2_termination_characterization ⟨"9", [(7, ⟨[], 256⟩)], []⟩ (.unregister 7)
    (by decide)).mpr (Or.inr ⟨7, ⟨[], 256⟩, rfl, rfl⟩)

set_option maxRecDepth 20000 in
/-- Counterexample for C2 as stated: a broadcast that evicts the last
member empties the membership map, yet the loop does not return
(`hubStep` reports `false`), contradicting "the loop exits the instant
the member set transitions from non-empty to empty, including when that
transition is caused by evicting the last member during a Broadcast". -/
theorem c2_broadcast_eviction_no_exit :
    c2state.members ≠ []
    ∧ (hubStep (.broadcast "x") c2state).1.members = []
    ∧ (hubStep (.broadcast "x") c2state).2 = false := by
  refine ⟨by decide, by decide, rfl⟩

/-- Claim C6 (amended): the context-cancellation case of `Hub.run` is a
bare `return`: the loop terminates at once, without waiting for queues
to drain, but it closes no member's outbound queue and leaves the whole
state untouched. -/
theorem c6_shutdown_terminates_without_closing (s : HubState) :
    hubStep .ctxDone s = (s, true) := rfl

/-- Counterexample for C6 as stated: on Shutdown the loop terminates
while member 0 is still present and its queue was never closed
(`closedLog` stays empty), contradicting "the Room closes the outbound
queue of every current member and then terminates". -/
theorem c6_shutdown_counterexample :
    (hubStep .ctxDone c6state).2 = true
    ∧ (0, (⟨[], 256⟩ : ClientQ)) ∈ (hubStep .ctxDone c6state).1.members
    ∧ (hubStep .ctxDone c6state).1.closedLog = [] := by
  decide

/-- One step of `room.run` computes the same membership as the spec's
membership step. -/
theorem roomStep_clients (s : RoomState) (cmd : JLCmd) :
    (roomStep s cmd).clients = specMembershipStep s.clients cmd := by
  cases cmd with
  | join c =>
    simp only [roomStep, specMembershipStep]
    split <;> rfl
  | leave c =>
    simp only [roomStep, specMembershipStep]
    split <;> rfl

/-- Replaying through `room.run` computes the spec membership from any
start state. -/
theorem roomReplay_clients (cmds : List JLCmd) :
    ∀ s : RoomState, (roomReplay s cmds).clients = specMembership s.clients cmds := by
  induction cmds with
  | nil => intro s; rfl
  | cons cmd t ih =>
    intro s
    calc (roomReplay (roomStep s cmd) t).clients
        = specMembership (roomStep s cmd).clients t := ih _
      _ = specMembership (specMembershipStep s.clients cmd) t := by
          rw [roomStep_clients]

/-- Claim C4: replaying any Join/Leave sequence from the empty room
yields exactly the spec's membership set (insert each joined peer,
discard every Leave of a non-member); a Leave of a non-member changes
nothing at all (no close, no removal); and the membership size, a
natural number, is never negative. -/
theorem c4_membership_replay (cmds : List JLCmd) :
    (roomReplay ⟨[], []⟩ cmds).clients = specMembership [] cmds
    ∧ (∀ c s, c ∉ s.clients → roomStep s (.leave c) = s)
    ∧ 0 ≤ (roomReplay ⟨[], []⟩ cmds).clients.length := by
  refine ⟨roomReplay_clients cmds ⟨[], []⟩, ?_, Nat.zero_le _⟩
  intro c s hc
  simp [roomStep, hc]

/-- Witness for C4: a Leave of non-member 7 leaves the room for
member 3 untouched, closing nothing. -/
theorem c4_membership_replay_witness :
    roomStep ⟨[3], []⟩ (.leave 7) = ⟨[3], []⟩ :=
  (c4_membership_replay []).2.1 7 ⟨[3], []⟩ (by decide)

/-- Claim C7: a payload recognized as a heartbeat probe frame is
consumed by the pump (nothing reaches the Room's broadcast channel);
every other payload is submitted as a Broadcast verbatim — the original
bytes, byte-for-byte, with nothing enqueued on the pump's own channel
for it. -/
theorem c7_ping_consumed_else_verbatim (ts m : String) :
    (isPingFrame m = true → (readPumpHandle ts m).toBroadcast = none)
    ∧ (isPingFrame m = false → readPumpHandle ts m = ⟨some m, []⟩) := by
  constructor
  · intro h
    simp [readPumpHandle, h]
  · intro h
    simp [readPumpHandle, h]

/-- Witness for C7: a chat payload is broadcast verbatim; a ping frame
(surrounded by white space) is consumed. -/
theorem c7_ping_consumed_witness :
    readPumpHandle "t" "hello" = ⟨some "hello", []⟩
    ∧ (readPumpHandle "t" " \x7b\"type\":\"ping\"\x7d ").toBroadcast = none := by
  refine ⟨(c7_ping_consumed_else_verbatim "t" "hello").2 (by decide),
    (c7_ping_consumed_else_verbatim "t" " \x7b\"type\":\"ping\"\x7d ").1 (by decide)⟩

set_option maxRecDepth 40000 in
/-- Claim C5's failing input, evaluated on the code: after client 0's
queue is closed by broadcast eviction (it is in `closedLog`, nothing
has panicked yet), the read pump's reply to one more ping frame is a
send on the closed channel — a Go runtime panic.  So a component (the
read pump's pong path, src/unnamed/part_001 line 195) does enqueue to
a closed outbound queue, against the invariant of claim C5. -/
theorem c5_pong_after_close_panics :
    0 ∈ (sysRun sysInit (c5trace.take 257)).hub.closedLog
    ∧ (sysRun sysInit (c5trace.take 257)).panicked = false
    ∧ (sysRun sysInit c5trace).panicked = true := by
  refine ⟨by decide, by decide, by decide⟩

/-- Claim C8: with an empty (missing) `pin` query parameter, `serveWs`
writes the 400 client-error status, attempts no upgrade, and leaves the
registry exactly as it was. -/
theorem c8_missing_pin_rejected (pin : String) (u : Bool) (s : RegState)
    (h : pin = "") : serveWs pin u s = ⟨some 400, false, s⟩ := by
  simp [serveWs, h]

/-- Witness for C8 on the empty registry. -/
theorem c8_missing_pin_rejected_witness :
    serveWs "" true regInit = ⟨some 400, false, regInit⟩ :=
  c8_missing_pin_rejected "" true regInit rfl

/-- The cascade of early returns in `allowOrigin` for a parsed origin
is the disjunction of its tests. -/
theorem allowOrigin_parsed_eq (host reqHost : String) :
    allowOrigin (.parsed host) reqHost =
      (goContains host localhostPat || goContains host loopbackPat ||
       goEqualFold host reqHost ||
       (goHasSuffix host renderSuffix || host == renderApex)) := by
  simp only [allowOrigin]
  cases h1 : (goContains host localhostPat || goContains host loopbackPat) <;>
    cases h2 : goEqualFold host reqHost <;>
      cases h3 : (goHasSuffix host renderSuffix || host == renderApex) <;>
        simp [h1, h2, h3]

/-- Claim C9: `allowOrigin` accepts exactly when the origin indicator
is absent, or the parsed origin host is a case-insensitive match of the
request's own host (same-origin), or it matches a configured trusted
pattern (local-development substrings or the deployment's own domain);
every other request is rejected, and a malformed (unparseable) origin
is always rejected (fails closed). -/
theorem c9_origin_guard (o : OriginHeader) (reqHost : String) :
    (allowOrigin o reqHost = true ↔
      (o = OriginHeader.absent ∨ ∃ host, o = OriginHeader.parsed host ∧
        (sameOriginHost host reqHost = true ∨ trustedOriginPattern host = true)))
    ∧ allowOrigin OriginHeader.malformed reqHost = false := by
  refine ⟨?_, rfl⟩
  cases o with
  | absent => simp [allowOrigin]
  | malformed => simp [allowOrigin]
  | parsed host =>
    rw [allowOrigin_parsed_eq]
    simp only [sameOriginHost, trustedOriginPattern]
    constructor
    · intro h
      refine Or.inr ⟨host, rfl, ?_⟩
      simp only [Bool.or_eq_true] at h ⊢
      tauto
    · rintro (h | ⟨host2, heq, hor⟩)
      · cases h
      · injection heq with hh
        subst hh
        simp only [Bool.or_eq_true] at hor ⊢
        tauto

/-- Witness for C9: a deployment-domain origin is accepted even on a
different request host, via the trusted-pattern disjunct. -/
theorem c9_origin_guard_witness :
    allowOrigin (OriginHeader.parsed "app.onrender.com") "example.org" = true :=
  (c9_origin_guard (OriginHeader.parsed "app.onrender.com") "example.org").1.mpr
    (Or.inr ⟨"app.onrender.com", rfl, Or.inr (by decide)⟩)

/-- The `GetOrCreate` invariant holds initially. -/
theorem gocInit_inv (n k : Nat) : GInv k (gocInit n k) :=
  Or.inl ⟨rfl, rfl, by
    intro c hc r
    rw [List.eq_of_mem_replicate hc]
    intro hcon
    cases hcon⟩

/-- One scheduled caller step preserves the `GetOrCreate` invariant. -/
theorem gocStep_inv {k : Nat} {s : GocState} (h : GInv k s) (i : Nat) :
    GInv k (gocStep s i) := by
  unfold gocStep
  cases hg : s.callers.get? i with
  | none => exact h
  | some ph =>
    cases ph with
    | start =>
      cases he : s.entry with
      | none =>
        rcases h with ⟨h1, h2, h3⟩ | ⟨h1, h2, h3⟩
        · refine Or.inl ⟨rfl, h2, ?_⟩
          intro c hc r
          rcases List.mem_or_eq_of_mem_set hc with hcl | hceq
          · exact h3 c hcl r
          · rw [hceq]
            intro hcon
            cases hcon
        · rw [h1] at he
          cases he
      | some h0 =>
        rcases h with ⟨h1, h2, h3⟩ | ⟨h1, h2, h3⟩
        · rw [h1] at he
          cases he
        · have hk : h0 = k := by
            rw [h1] at he
            injection he with hk2
            exact hk2.symm
          refine Or.inr ⟨by rw [hk], h2, ?_⟩
          intro c hc r hr
          rcases List.mem_or_eq_of_mem_set hc with hcl | hceq
          · exact h3 c hcl r hr
          · rw [hceq] at hr
            injection hr with hrr
            exact hrr.symm.trans hk
    | probed =>
      cases he : s.entry with
      | none =>
        rcases h with ⟨h1, h2, h3⟩ | ⟨h1, h2, h3⟩
        · refine Or.inr ⟨?_, ?_, ?_⟩
          · show some s.nextId = some k
            rw [h2]
          · show s.nextId + 1 = k + 1
            rw [h2]
          · intro c hc r hr
            rcases List.mem_or_eq_of_mem_set hc with hcl | hceq
            · exact absurd hr (h3 c hcl r)
            · rw [hceq] at hr
              injection hr with hrr
              exact hrr.symm.trans h2
        · rw [h1] at he
          cases he
      | some h0 =>
        rcases h with ⟨h1, h2, h3⟩ | ⟨h1, h2, h3⟩
        · rw [h1] at he
          cases he
        · have hk : h0 = k := by
            rw [h1] at he
            injection he with hk2
            exact hk2.symm
          refine Or.inr ⟨by rw [hk], h2, ?_⟩
          intro c hc r hr
          rcases List.mem_or_eq_of_mem_set hc with hcl | hceq
          · exact h3 c hcl r hr
          · rw [hceq] at hr
            injection hr with hrr
            exact hrr.symm.trans hk
    | done r0 => exact h

/-- Any schedule preserves the `GetOrCreate` invariant. -/
theorem runGoc_inv {k : Nat} {s : GocState} (h : GInv k s) (sched : List Nat) :
    GInv k (runGoc s sched) := by
  induction sched generalizing s with
  | nil => exact h
  | cons i t ih => exact ih (gocStep_inv h i)

/-- Claim C10: under every interleaving of N concurrent
`GetOrCreate(pin)` callers racing on a previously-unseen pin — each
caller an unlocked probe followed by a locked re-check-and-create —
every caller that has completed holds the one room `k`; the map records
exactly that room, and the freshness counter advanced exactly once, so
exactly one room was ever constructed. -/
theorem c10_resolve_single_room (n k : Nat) (sched : List Nat) :
    ∀ i r, (runGoc (gocInit n k) sched).callers.get? i = some (CPhase.done r) →
      r = k ∧ (runGoc (gocInit n k) sched).entry = some k
        ∧ (runGoc (gocInit n k) sched).nextId = k + 1 := by
  intro i r hget
  have hmem : CPhase.done r ∈ (runGoc (gocInit n k) sched).callers :=
    List.get?_mem hget
  rcases runGoc_inv (gocInit_inv n k) sched with ⟨h1, h2, h3⟩ | ⟨h1, h2, h3⟩
  · exact absurd rfl (h3 _ hmem r)
  · exact ⟨h3 _ hmem r rfl, h1, h2⟩

/-- Witness for C10: two callers fully interleaved (both probe, then
both take the lock in turn) end up with the same single room 5. -/
theorem c10_resolve_single_room_witness :
    (runGoc (gocInit 2 5) [0, 1, 0, 1]).entry = some 5 :=
  (c10_resolve_single_room 2 5 [0, 1, 0, 1] 1 5 (by decide)).2.1

/-- Appending an entry for another pin does not change a lookup. -/
theorem lookupPin_append_other {l : List (String × Nat)} {pin p : String} (n : Nat)
    (hne : p ≠ pin) : lookupPin (l ++ [(pin, n)]) p = lookupPin l p := by
  induction l with
  | nil =>
    simp only [List.nil_append, lookupPin]
    rw [if_neg (fun h => hne h.symm)]
  | cons a t ih =>
    simp only [List.cons_append, lookupPin]
    split
    · rfl
    · exact ih

/-- Appending an entry for an unmapped pin makes its lookup find it. -/
theorem lookupPin_append_self {l : List (String × Nat)} {pin : String} (n : Nat)
    (hnone : lookupPin l pin = none) :
    lookupPin (l ++ [(pin, n)]) pin = some n := by
  induction l with
  | nil => simp [lookupPin]
  | cons a t ih =>
    simp only [lookupPin] at hnone
    simp only [List.cons_append, lookupPin]
    by_cases ha : a.1 = pin
    · rw [if_pos ha] at hnone
      cases hnone
    · rw [if_neg ha] at hnone
      rw [if_neg ha]
      exact ih hnone

/-- A successful lookup is a membership. -/
theorem lookupPin_mem {l : List (String × Nat)} {p : String} {h : Nat}
    (hl : lookupPin l p = some h) : (p, h) ∈ l := by
  induction l with
  | nil => cases hl
  | cons a t ih =>
    obtain ⟨a1, a2⟩ := a
    simp only [lookupPin] at hl
    by_cases ha : a1 = p
    · rw [if_pos ha] at hl
      injection hl with hh
      exact List.mem_cons.mpr (Or.inl (by rw [ha, hh]))
    · rw [if_neg ha] at hl
      exact List.mem_cons.mpr (Or.inr (ih hl))

/-- Deleting a pin's entries makes its lookup fail. -/
theorem lookupPin_filter_self (l : List (String × Nat)) (pin : String) :
    lookupPin (l.filter (fun e2 => e2.1 != pin)) pin = none := by
  induction l with
  | nil => rfl
  | cons a t ih =>
    rw [List.filter_cons]
    by_cases ha : a.1 = pin
    · have hnotc : ¬((a.1 != pin) = true) := by simp [ha]
      rw [if_neg hnotc]
      exact ih
    · have hb : (a.1 != pin) = true := bne_iff_ne.mpr ha
      rw [if_pos hb]
      simp only [lookupPin, if_neg ha]
      exact ih

/-- Deleting a pin's entries does not change another pin's lookup. -/
theorem lookupPin_filter_other {l : List (String × Nat)} {pin p : String}
    (hne : p ≠ pin) :
    lookupPin (l.filter (fun e2 => e2.1 != pin)) p = lookupPin l p := by
  induction l with
  | nil => rfl
  | cons a t ih =>
    rw [List.filter_cons]
    by_cases ha : a.1 = pin
    · have hnotc : ¬((a.1 != pin) = true) := by simp [ha]
      rw [if_neg hnotc]
      rw [ih]
      simp only [lookupPin]
      rw [if_neg (fun h => hne (h.symm.trans ha))]
    · have hb : (a.1 != pin) = true := bne_iff_ne.mpr ha
      rw [if_pos hb]
      simp only [lookupPin]
      split
      · rfl
      · exact ih

/-- The registry invariant holds for the empty registry. -/
theorem regInit_inv : RegInv regInit := by
  refine ⟨?_, ?_, ?_⟩
  · intro p h hp
    rcases hp with hp | hp <;> cases hp
  · intro p h hp
    cases hp
  · intro e2 he2 hp
    cases he2

/-- Every registry event preserves the registry invariant. -/
theorem regStep_inv {s : RegState} (hinv : RegInv s) (e : RegEvent) :
    RegInv (regStep s e).1 := by
  obtain ⟨hA, hB, hC⟩ := hinv
  cases e with
  | resolve pin =>
    cases hl : lookupPin s.hubs pin with
    | some h =>
      simp only [regStep, hl]
      exact ⟨hA, hB, hC⟩
    | none =>
      simp only [regStep, hl]
      refine ⟨?_, ?_, ?_⟩
      · intro p h hp
        rcases hp with hp | hp
        · rcases List.mem_append.mp hp with hp | hp
          · have hlk := hA p h (Or.inl hp)
            have hpne : p ≠ pin := by
              intro hpp
              rw [hpp, hl] at hlk
              cases hlk
            rw [lookupPin_append_other _ hpne]
            exact hlk
          · simp only [List.mem_singleton] at hp
            simp only [Prod.mk.injEq] at hp
            obtain ⟨hp1, hp2⟩ := hp
            subst hp1
            subst hp2
            exact lookupPin_append_self _ hl
        · have hlk := hA p h (Or.inr hp)
          have hpne : p ≠ pin := by
            intro hpp
            rw [hpp, hl] at hlk
            cases hlk
          rw [lookupPin_append_other _ hpne]
          exact hlk
      · intro p h hp
        rcases List.mem_append.mp hp with hp | hp
        · exact Nat.lt_succ_of_lt (hB p h hp)
        · simp only [List.mem_singleton] at hp
          simp only [Prod.mk.injEq] at hp
          rw [hp.2]
          exact Nat.lt_succ_self _
      · intro e2 he2 hpen
        rcases List.mem_append.mp he2 with he2 | he2
        · exact hC e2 he2 hpen
        · simp only [List.mem_singleton] at he2
          subst he2
          have hlk := hA pin s.nextId (Or.inr hpen)
          rw [hl] at hlk
          cases hlk
  | hubDone pin h =>
    by_cases hg : (pin, h) ∈ s.live
    · simp only [regStep]
      rw [if_pos hg]
      refine ⟨?_, hB, ?_⟩
      · intro p h2 hp
        rcases hp with hp | hp
        · exact hA p h2 (Or.inl (List.mem_of_mem_filter hp))
        · rcases List.mem_append.mp hp with hp | hp
          · exact hA p h2 (Or.inr hp)
          · simp only [List.mem_singleton] at hp
            simp only [Prod.mk.injEq] at hp
            rw [hp.1, hp.2]
            exact hA pin h (Or.inl hg)
      · intro e2 he2 hpen
        have he2t : e2 ∈ s.live := List.mem_of_mem_filter he2
        have hne : e2 ≠ (pin, h) := by
          have hf := List.of_mem_filter he2
          simpa using hf
        rcases List.mem_append.mp hpen with hp | hp
        · exact hC e2 he2t hp
        · simp only [List.mem_singleton] at hp
          exact hne hp
    · simp only [regStep]
      rw [if_neg hg]
      exact ⟨hA, hB, hC⟩
  | cleanup pin h =>
    by_cases hg : (pin, h) ∈ s.pending
    · simp only [regStep]
      rw [if_pos hg]
      refine ⟨?_, ?_, ?_⟩
      · intro p h2 hp
        have hmem : (p, h2) ∈ s.live ∨ (p, h2) ∈ s.pending := by
          rcases hp with hp | hp
          · exact Or.inl hp
          · exact Or.inr (List.mem_of_mem_filter hp)
        have hlk := hA p h2 hmem
        by_cases hpp : p = pin
        · exfalso
          subst hpp
          have hlk0 := hA p h (Or.inr hg)
          have hh2 : h2 = h := by
            have hsome := hlk.symm.trans hlk0
            injection hsome
          subst hh2
          rcases hp with hp | hp
          · exact hC (p, h2) hp hg
          · have hf := List.of_mem_filter hp
            simp at hf
        · rw [lookupPin_filter_other hpp]
          exact hlk
      · intro p h2 hp
        exact hB p h2 (List.mem_of_mem_filter hp)
      · intro e2 he2 hpen
        exact hC e2 he2 (List.mem_of_mem_filter hpen)
    · simp only [regStep]
      rw [if_neg hg]
      exact ⟨hA, hB, hC⟩

/-- The registry invariant holds after any event trace. -/
theorem runReg_inv {s : RegState} (h : RegInv s) (tr : List RegEvent) :
    RegInv (runReg s tr) := by
  induction tr generalizing s with
  | nil => exact h
  | cons e t ih => exact ih (regStep_inv h e)

/-- Claim C3 (amended): after any trace of registry events, (a) every
terminated-but-not-yet-cleaned hub is still exactly the hub its pin
maps to — so the cleanup's unconditional `delete(m.hubs, p)` can never
clobber a newer Room for the same pin — and (b) running that cleanup
does remove the pin's mapping entry; (c) once the pin is unmapped (the
cleanup has run), `getHub` constructs and returns a fresh Room whose
identity differs from every Room the registry has ever recorded, live
or terminated.  What the original claim adds — that a Resolve issued
after the loop terminates always returns a new Room — is false: before
the cleanup runs, `getHub` still finds the map entry and returns the
terminated Room (see the counterexample). -/
theorem c3_registry_cleanup_amended (tr : List RegEvent) :
    (∀ p h, (p, h) ∈ (runReg regInit tr).pending →
        lookupPin (runReg regInit tr).hubs p = some h)
    ∧ (∀ p h, (p, h) ∈ (runReg regInit tr).pending →
        lookupPin (regStep (runReg regInit tr) (.cleanup p h)).1.hubs p = none)
    ∧ (∀ pin, lookupPin (runReg regInit tr).hubs pin = none →
        (regStep (runReg regInit tr) (.resolve pin)).2
            = some (runReg regInit tr).nextId
        ∧ lookupPin (regStep (runReg regInit tr) (.resolve pin)).1.hubs pin
            = some (runReg regInit tr).nextId
        ∧ (∀ p h, ((p, h) ∈ (runReg regInit tr).hubs
              ∨ (p, h) ∈ (runReg regInit tr).live
              ∨ (p, h) ∈ (runReg regInit tr).pending) →
            h ≠ (runReg regInit tr).nextId)) := by
  obtain ⟨hA, hB, hC⟩ := runReg_inv regInit_inv tr
  refine ⟨fun p h hp => hA p h (Or.inr hp), ?_, ?_⟩
  · intro p h hp
    simp only [regStep]
    rw [if_pos hp]
    exact lookupPin_filter_self _ _
  · intro pin hnone
    refine ⟨?_, ?_, ?_⟩
    · simp only [regStep, hnone]
    · simp only [regStep, hnone]
      exact lookupPin_append_self _ hnone
    · intro p h hp hne
      have hhubs : (p, h) ∈ (runReg regInit tr).hubs := by
        rcases hp with hp | hp | hp
        · exact hp
        · exact lookupPin_mem (hA p h (Or.inl hp))
        · exact lookupPin_mem (hA p h (Or.inr hp))
      exact absurd hne (absurd (hB p h hhubs) (by rw [hne]; exact Nat.lt_irrefl _))

/-- Witness for C3: create hub 0 for pin `a`, let its loop return, run
its cleanup; the mapping entry for `a` is gone. -/
theorem c3_registry_cleanup_amended_witness :
    lookupPin (regStep (runReg regInit [RegEvent.resolve "a", RegEvent.hubDone "a" 0])
        (.cleanup "a" 0)).1.hubs "a" = none :=
  (c3_registry_cleanup_amended [RegEvent.resolve "a", RegEvent.hubDone "a" 0]).2.1
    "a" 0 (by decide)

/-- Counterexample for C3 as stated: hub 0 is created for pin 4242 and
its loop terminates (it is in `pending`, i.e. terminated and awaiting
cleanup); a Resolve of the same pin issued before the cleanup executes
returns `some 0` — the terminated Room itself, not a new, distinct
one — refuting "after the last member leaves, a subsequent Resolve of
the same PIN creates and returns a new, distinct Room, never the
terminated one". -/
theorem c3_stale_resolve_counterexample :
    runRegOuts regInit
        [RegEvent.resolve "4242", RegEvent.hubDone "4242" 0, RegEvent.resolve "4242"]
      = [some 0, none, some 0]
    ∧ ("4242", 0) ∈ (runReg regInit
        [RegEvent.resolve "4242", RegEvent.hubDone "4242" 0]).pending := by
  refine ⟨by decide, by decide⟩
